import Mathlib

/-!
Shallow embedding of the dynamic array in src/advanced-vector/vector.h.

The C++ Vector<T> owns a RawMemory<T> data_ (a buffer of capacity_ raw slots)
and a size_ counter; slots [0, size_) hold live constructed elements.  We model
the observable state as the list of live element values plus the capacity.
Machine pointers become indices; iterators returned by Emplace/Erase become the
index they point at.  Operations of the contained type T that may throw
(copy construction, default construction, allocation) are modelled with
explicit success oracles, and a fallible operation returns Except, where an
error carries the observable state the container is left in when the exception
propagates to the caller.
-/

namespace AdvancedVector

/-- Model of Vector<T> (vector.h lines 100-468): elems are the live constructed
elements data_[0], ..., data_[size_ - 1] in order, cap is data_.Capacity(). -/
structure Vector (α : Type) where
  elems : List α
  cap : ℕ
deriving Repr, DecidableEq

variable {α : Type}

/-- Size() returns size_, the count of live elements (line 398). -/
def Vector.Size (s : Vector α) : ℕ := s.elems.length

/-- Capacity() returns data_.Capacity() (line 403). -/
def Vector.Capacity (s : Vector α) : ℕ := s.cap

/-- Default-constructed Vector: null buffer, capacity 0, size 0 (line 138). -/
def Vector.empty : Vector α := ⟨[], 0⟩

/-- Capacity chosen on reallocation: size_ == 0 ? 1 : size_ * 2
(lines 229, 258, 286, 332). -/
def newCapacity (n : ℕ) : ℕ := if n = 0 then 1 else n * 2

/-- PushBack (lines 249-273), success path.  If size_ < Capacity() the value is
constructed in slot size_ of the current buffer; otherwise a buffer of
newCapacity size_ slots is allocated, the value is constructed at slot size_ of
the new buffer, the old elements are relocated to slots [0, size_), the buffers
are swapped and the old elements destroyed.  Either way the live sequence
becomes elems ++ [v] and ++size_. -/
def Vector.PushBack (s : Vector α) (v : α) : Vector α :=
  if s.Size < s.cap then ⟨s.elems ++ [v], s.cap⟩
  else ⟨s.elems ++ [v], newCapacity s.Size⟩

/-- PopBack (lines 303-307): destroy_n(data_.GetAddress() + size_ - 1, 1) then
--size_.  The live sequence loses its last element. -/
def Vector.PopBack (s : Vector α) : Vector α := ⟨s.elems.dropLast, s.cap⟩

/-- Net effect on the live sequence of the size_ < Capacity() branch of Emplace
(lines 321-329): the temporary holds v, the last element is move-constructed
into slot size_, move_backward shifts slots [i, size_ - 1) right by one, and the
temporary is move-assigned into slot i.  Rendered as structural recursion on
the position: slots before i keep their value, v lands at i, the rest shift
right.  The i > length case is unreachable (the code asserts pos <= end()). -/
def insertList : List α → ℕ → α → List α
  | xs, 0, v => v :: xs
  | [], _ + 1, v => [v]
  | x :: xs, i + 1, v => x :: insertList xs i v

/-- Net effect on the live sequence of Erase (lines 387-396):
std::move(begin() + i + 1, end(), begin() + i) shifts the tail left by one,
then PopBack destroys the vacated last slot. -/
def eraseList : List α → ℕ → List α
  | [], _ => []
  | _ :: xs, 0 => xs
  | x :: xs, i + 1 => x :: eraseList xs i

/-- Emplace at index i (lines 309-375), success path, returning the new state
and the index the returned iterator points at.  If pos == cend() it delegates
to EmplaceBack and returns end() - 1, i.e. index size_.  Otherwise, without
reallocation the shift-right insert runs in place; with reallocation
(size_ == Capacity()) the value is constructed at slot i of a doubled buffer,
the prefix [0, i) is relocated to [0, i) and the suffix [i, size_) to
[i + 1, size_ + 1), which also yields insertList of the live sequence. -/
def Vector.Emplace (s : Vector α) (i : ℕ) (v : α) : Vector α × ℕ :=
  if i = s.Size then (s.PushBack v, s.Size)
  else if s.Size < s.cap then (⟨insertList s.elems i v, s.cap⟩, i)
  else (⟨insertList s.elems i v, newCapacity s.Size⟩, i)

/-- Insert (lines 377-385) forwards to Emplace. -/
def Vector.Insert (s : Vector α) (i : ℕ) (v : α) : Vector α × ℕ := s.Emplace i v

/-- Erase at index i (lines 387-396): shift left, PopBack, return
begin() + index. -/
def Vector.Erase (s : Vector α) (i : ℕ) : Vector α × ℕ :=
  (⟨eraseList s.elems i, s.cap⟩, i)

/-- Move constructor (lines 154-158): the new vector starts default-constructed
(null buffer, size 0) and swaps with other, so it takes other's storage and
size and other becomes empty.  Returns (destination, moved-from source). -/
def Vector.moveCtor (src : Vector α) : Vector α × Vector α := (src, Vector.empty)

/-- Move assignment (lines 194-201): if this != &rhs then Swap(rhs).  The flag
same models the this == &rhs identity check.  Returns
(destination, moved-from source); a plain swap when the operands differ. -/
def Vector.moveAssign (same : Bool) (dst src : Vector α) : Vector α × Vector α :=
  if same then (dst, src) else (src, dst)

/-- A back-end operation on the container: PushBack of a value, or PopBack. -/
inductive Op (α : Type) where
  | push : α → Op α
  | pop : Op α
deriving Repr, DecidableEq

/-- Run a sequence of PushBack / PopBack calls on the vector. -/
def Vector.runOps (s : Vector α) : List (Op α) → Vector α
  | [] => s
  | Op.push v :: rest => (s.PushBack v).runOps rest
  | Op.pop :: rest => s.PopBack.runOps rest

/-- Validity of an operation sequence started at size n: PopBack is applied
only when the current size is positive (its precondition, line 303). -/
def validOps : ℕ → List (Op α) → Bool
  | _, [] => true
  | n, Op.push _ :: rest => validOps (n + 1) rest
  | n, Op.pop :: rest => decide (0 < n) && validOps (n - 1) rest

/-- Number of push operations in a sequence. -/
def pushCount : List (Op α) → ℕ
  | [] => 0
  | Op.push _ :: rest => pushCount rest + 1
  | Op.pop :: rest => pushCount rest

/-- Number of pop operations in a sequence. -/
def popCount : List (Op α) → ℕ
  | [] => 0
  | Op.push _ :: rest => popCount rest
  | Op.pop :: rest => popCount rest + 1

/-- Specification-level stack semantics on a plain list of values: push appends
at the back, pop removes the back element. -/
def stackRun : List α → List (Op α) → List α
  | xs, [] => xs
  | xs, Op.push v :: rest => stackRun (xs ++ [v]) rest
  | xs, Op.pop :: rest => stackRun xs.dropLast rest

/-- Repeated PushBack of the value 0 starting from a given vector of naturals,
with no intervening Reserve. -/
def pushRepeat (s : Vector ℕ) : ℕ → Vector ℕ
  | 0 => s
  | k + 1 => (pushRepeat s k).PushBack 0

theorem PushBack_elems (s : Vector α) (v : α) :
    (s.PushBack v).elems = s.elems ++ [v] := by
  unfold Vector.PushBack; split <;> rfl

theorem PushBack_Size (s : Vector α) (v : α) :
    (s.PushBack v).Size = s.Size + 1 := by
  simp [Vector.Size, PushBack_elems]

theorem PushBack_cap (s : Vector α) (v : α) :
    (s.PushBack v).cap = if s.Size < s.cap then s.cap else newCapacity s.Size := by
  unfold Vector.PushBack; split <;> simp_all

theorem PopBack_elems (s : Vector α) : s.PopBack.elems = s.elems.dropLast := rfl

theorem PopBack_Size (s : Vector α) : s.PopBack.Size = s.Size - 1 := by
  simp [Vector.Size, Vector.PopBack]

theorem insertList_eq_take_drop (v : α) :
    ∀ (xs : List α) (i : ℕ), insertList xs i v = xs.take i ++ v :: xs.drop i
  | _, 0 => by simp [insertList]
  | [], _ + 1 => by simp [insertList]
  | x :: xs, i + 1 => by
    simp [insertList, insertList_eq_take_drop v xs i]

theorem insertList_length (v : α) :
    ∀ (xs : List α) (i : ℕ), (insertList xs i v).length = xs.length + 1
  | _, 0 => by simp [insertList]
  | [], _ + 1 => by simp [insertList]
  | x :: xs, i + 1 => by
    simp [insertList, insertList_length v xs i]

theorem eraseList_eq_take_drop :
    ∀ (xs : List α) (i : ℕ), eraseList xs i = xs.take i ++ xs.drop (i + 1)
  | [], _ => by simp [eraseList]
  | _ :: _, 0 => rfl
  | x :: xs, i + 1 => by
    simp [eraseList, eraseList_eq_take_drop xs i]

theorem eraseList_insertList (v : α) :
    ∀ (xs : List α) (i : ℕ), i ≤ xs.length →
      eraseList (insertList xs i v) i = xs
  | xs, 0, _ => by simp [insertList, eraseList]
  | [], i + 1, h => by simp at h
  | x :: xs, i + 1, h => by
    simp [insertList, eraseList,
      eraseList_insertList v xs i (by simpa using h)]

theorem eraseList_length :
    ∀ (xs : List α) (i : ℕ), i < xs.length →
      (eraseList xs i).length = xs.length - 1
  | [], _, h => by simp at h
  | _ :: _, 0, _ => by simp [eraseList]
  | x :: xs, i + 1, h => by
    have hx : i < xs.length := by simpa using h
    have hpos : 1 ≤ xs.length := by omega
    simp [eraseList, eraseList_length xs i hx]
    omega

theorem insertList_getElem (v : α) :
    ∀ (xs : List α) (i : ℕ), i ≤ xs.length → (insertList xs i v)[i]? = some v
  | _, 0, _ => by simp [insertList]
  | [], i + 1, h => by simp at h
  | x :: xs, i + 1, h => by
    simpa [insertList] using insertList_getElem v xs i (by simpa using h)

theorem eraseList_getElem :
    ∀ (xs : List α) (i : ℕ), i < xs.length → (eraseList xs i)[i]? = xs[i + 1]?
  | [], _, h => by simp at h
  | _ :: _, 0, _ => by simp [eraseList]
  | x :: xs, i + 1, h => by
    simpa [eraseList] using eraseList_getElem xs i (by simpa using h)

theorem runOps_elems (s : Vector α) (ops : List (Op α)) :
    (s.runOps ops).elems = stackRun s.elems ops := by
  induction ops generalizing s with
  | nil => rfl
  | cons op rest ih =>
    cases op with
    | push v =>
      simp [Vector.runOps, stackRun, ih, PushBack_elems]
    | pop =>
      simp [Vector.runOps, stackRun, ih, PopBack_elems]

theorem runOps_Size (s : Vector α) (ops : List (Op α))
    (h : validOps s.Size ops = true) :
    (s.runOps ops).Size + popCount ops = s.Size + pushCount ops := by
  induction ops generalizing s with
  | nil => simp [Vector.runOps, popCount, pushCount]
  | cons op rest ih =>
    cases op with
    | push v =>
      have h' : validOps (s.PushBack v).Size rest = true := by
        simpa [validOps, PushBack_Size] using h
      have := ih (s.PushBack v) h'
      simp only [Vector.runOps, popCount, pushCount]
      rw [PushBack_Size] at this
      omega
    | pop =>
      simp only [validOps, Bool.and_eq_true, decide_eq_true_eq] at h
      have h' : validOps s.PopBack.Size rest = true := by
        rw [PopBack_Size]; exact h.2
      have := ih s.PopBack h'
      rw [PopBack_Size] at this
      simp only [Vector.runOps, popCount, pushCount]
      omega

theorem pushRepeat_Size (s : Vector ℕ) (k : ℕ) :
    (pushRepeat s k).Size = s.Size + k := by
  induction k with
  | zero => rfl
  | succ k ih => simp [pushRepeat, PushBack_Size, ih]; omega

/-- Capacity invariant of the doubling policy: after m + 1 pushes from empty
the capacity is the least power of two at or above the size. -/
theorem pushRepeat_cap_inv (m : ℕ) :
    ∃ j, (pushRepeat Vector.empty (m + 1)).cap = 2 ^ j ∧
      m + 1 ≤ 2 ^ j ∧ 2 ^ j < 2 * (m + 1) := by
  induction m with
  | zero =>
    refine ⟨0, ?_, by omega, by omega⟩
    rfl
  | succ m ih =>
    obtain ⟨j, hc, h1, h2⟩ := ih
    have hsz : (pushRepeat Vector.empty (m + 1)).Size = m + 1 := by
      simpa [Vector.empty, Vector.Size] using pushRepeat_Size Vector.empty (m + 1)
    by_cases h : (pushRepeat Vector.empty (m + 1)).Size <
        (pushRepeat Vector.empty (m + 1)).cap
    · refine ⟨j, ?_, ?_, ?_⟩
      · rw [show pushRepeat Vector.empty (m + 1 + 1) =
          (pushRepeat Vector.empty (m + 1)).PushBack 0 from rfl,
          PushBack_cap, if_pos h, hc]
      · rw [hsz, hc] at h; omega
      · omega
    · have heq : m + 1 = 2 ^ j := by
        rw [hsz, hc] at h; omega
      refine ⟨j + 1, ?_, ?_, ?_⟩
      · rw [show pushRepeat Vector.empty (m + 1 + 1) =
          (pushRepeat Vector.empty (m + 1)).PushBack 0 from rfl,
          PushBack_cap, if_neg h, hsz]
        simp [newCapacity, pow_succ]
        omega
      · have : 1 ≤ 2 ^ j := Nat.one_le_two_pow
        rw [pow_succ]; omega
      · rw [pow_succ]; omega

/-- C2, counterexample: the claim says the moved-from source of a move
assignment has Size() == 0, but operator=(Vector&&) is implemented as Swap, so
after assigning from a one-element source into a one-element destination the
source holds the destination's old element and has size 1. -/
theorem claim_C2_counterexample :
    (Vector.moveAssign false (Vector.mk [5] 1) (Vector.mk ([7] : List ℕ) 1)).2.Size = 1 ∧
    (1 : ℕ) ≠ 0 := by
  constructor
  · rfl
  · decide

/-- C2, amended: after move construction the destination equals the pre-move
source and the source is a valid empty vector; after move assignment between
distinct vectors the destination equals the pre-move source and the source
holds the destination's previous state (a valid vector, empty only if the
destination was empty); self move assignment leaves both unchanged.  Both
operations are modelled as total functions, matching their noexcept
specification. -/
theorem claim_C2_move_semantics (dst src : Vector α) :
    (src.moveCtor.1 = src ∧ src.moveCtor.2.Size = 0) ∧
    Vector.moveAssign false dst src = (src, dst) ∧
    Vector.moveAssign true dst src = (dst, src) := by
  refine ⟨⟨rfl, rfl⟩, ?_, ?_⟩ <;> simp [Vector.moveAssign]

/-- C4, counterexample: the claim says the surviving elements are the initial
elements followed by the surviving pushed values, but a valid sequence may pop
an initial element: starting from [0] with size 1, the sequence pop, push 7 is
valid, yet the result is [7], not [0] followed by the surviving push [7]. -/
theorem claim_C4_counterexample :
    validOps (Vector.mk ([0] : List ℕ) 1).Size [Op.pop, Op.push 7] = true ∧
    ((Vector.mk ([0] : List ℕ) 1).runOps [Op.pop, Op.push 7]).elems = [7] ∧
    ([7] : List ℕ) ≠ [0] ++ [7] := by
  refine ⟨by decide, rfl, by decide⟩

/-- C4, amended: for every valid sequence of PushBack and PopBack operations
(PopBack only when size is positive), the final Size() satisfies
Size + pops = initial size + pushes, and the element sequence read back by
index equals the stack-semantics evolution of the initial elements (each push
appends its value at the back, each pop removes the back element) — i.e. the
surviving prefix of the initial elements followed by the surviving pushed
values in push order. -/
theorem claim_C4_push_pop_sequences (s : Vector α) (ops : List (Op α))
    (h : validOps s.Size ops = true) :
    (s.runOps ops).Size + popCount ops = s.Size + pushCount ops ∧
    (s.runOps ops).elems = stackRun s.elems ops :=
  ⟨runOps_Size s ops h, runOps_elems s ops⟩

/-- C4, witness: a concrete valid push/pop sequence from a one-element vector. -/
theorem claim_C4_witness :
    validOps (Vector.mk ([4] : List ℕ) 1).Size [Op.push 5, Op.pop, Op.push 6] = true ∧
    (((Vector.mk ([4] : List ℕ) 1).runOps [Op.push 5, Op.pop, Op.push 6]).Size +
        popCount [Op.push 5, Op.pop, Op.push (6 : ℕ)] =
      (Vector.mk ([4] : List ℕ) 1).Size +
        pushCount [Op.push 5, Op.pop, Op.push (6 : ℕ)] ∧
      ((Vector.mk ([4] : List ℕ) 1).runOps [Op.push 5, Op.pop, Op.push 6]).elems =
        stackRun [4] [Op.push 5, Op.pop, Op.push 6]) :=
  ⟨by decide, claim_C4_push_pop_sequences (Vector.mk [4] 1)
    [Op.push 5, Op.pop, Op.push 6] (by decide)⟩

/-- C5: starting from a default-constructed empty vector, after m + 1
consecutive PushBack calls with no intervening Reserve the capacity is the
first power of two greater than or equal to the element count (a power of two
at or above m + 1 but below its double), and the (m + 1)-st PushBack changes
the capacity exactly when it finds size equal to capacity. -/
theorem claim_C5_growth_doubling (m : ℕ) :
    (∃ j, (pushRepeat Vector.empty (m + 1)).Capacity = 2 ^ j ∧
      m + 1 ≤ 2 ^ j ∧ 2 ^ j < 2 * (m + 1)) ∧
    ((pushRepeat Vector.empty (m + 1)).Capacity ≠
        (pushRepeat Vector.empty m).Capacity ↔
      (pushRepeat Vector.empty m).Size = (pushRepeat Vector.empty m).Capacity) := by
  constructor
  · exact pushRepeat_cap_inv m
  · cases m with
    | zero => decide
    | succ m =>
      obtain ⟨j, hc, h1, h2⟩ := pushRepeat_cap_inv m
      have hsz : (pushRepeat Vector.empty (m + 1)).Size = m + 1 := by
        simpa [Vector.empty, Vector.Size] using pushRepeat_Size Vector.empty (m + 1)
      have hstep : pushRepeat Vector.empty (m + 1 + 1) =
          (pushRepeat Vector.empty (m + 1)).PushBack 0 := rfl
      by_cases h : (pushRepeat Vector.empty (m + 1)).Size <
          (pushRepeat Vector.empty (m + 1)).cap
      · rw [Vector.Capacity, Vector.Capacity, hstep, PushBack_cap, if_pos h]
        constructor
        · intro hne; exact absurd rfl hne
        · intro heqc; omega
      · have heq : (pushRepeat Vector.empty (m + 1)).Size =
            (pushRepeat Vector.empty (m + 1)).cap := by
          rw [hsz, hc] at h ⊢; omega
        rw [Vector.Capacity, Vector.Capacity, hstep, PushBack_cap, if_neg h]
        constructor
        · intro _; exact heq
        · intro _
          rw [heq, newCapacity, hc]
          have : 1 ≤ 2 ^ j := Nat.one_le_two_pow
          split <;> omega

/-- C6: for every vector and every valid position i (begin() <= pos <= end()),
Insert at i yields the original sequence with v inserted exactly at index i,
increments the size by one, returns an iterator to index i where the new value
sits, and a subsequent Erase at i restores the original sequence and size. -/
theorem claim_C6_insert_erase (s : Vector α) (i : ℕ) (v : α) (h : i ≤ s.Size) :
    (s.Insert i v).1.elems = s.elems.take i ++ v :: s.elems.drop i ∧
    (s.Insert i v).1.Size = s.Size + 1 ∧
    (s.Insert i v).2 = i ∧
    (s.Insert i v).1.elems[i]? = some v ∧
    ((s.Insert i v).1.Erase i).1.elems = s.elems ∧
    ((s.Insert i v).1.Erase i).1.Size = s.Size := by
  have helems : (s.Insert i v).1.elems = insertList s.elems i v := by
    unfold Vector.Insert Vector.Emplace
    by_cases h0 : i = s.Size
    · subst h0
      rw [if_pos rfl, PushBack_elems, insertList_eq_take_drop]
      simp [Vector.Size]
    · rw [if_neg h0]; split <;> rfl
  have hret : (s.Insert i v).2 = i := by
    unfold Vector.Insert Vector.Emplace
    by_cases h0 : i = s.Size
    · subst h0; rw [if_pos rfl]
    · rw [if_neg h0]; split <;> rfl
  refine ⟨by rw [helems, insertList_eq_take_drop], ?_, hret, ?_, ?_, ?_⟩
  · simp [Vector.Size, helems, insertList_length]
  · rw [helems]; exact insertList_getElem v s.elems i h
  · simp [Vector.Erase, helems, eraseList_insertList v s.elems i h]
  · simp [Vector.Size, Vector.Erase, helems, eraseList_insertList v s.elems i h]

/-- C6, witness: inserting 9 at index 1 of [10, 20, 30] and erasing it again. -/
theorem claim_C6_witness :
    (1 ≤ (Vector.mk ([10, 20, 30] : List ℕ) 4).Size) ∧
    (((Vector.mk ([10, 20, 30] : List ℕ) 4).Insert 1 9).1.elems =
        [10, 20, 30].take 1 ++ 9 :: [10, 20, 30].drop 1 ∧
      ((Vector.mk ([10, 20, 30] : List ℕ) 4).Insert 1 9).1.Size =
        (Vector.mk ([10, 20, 30] : List ℕ) 4).Size + 1 ∧
      ((Vector.mk ([10, 20, 30] : List ℕ) 4).Insert 1 9).2 = 1 ∧
      ((Vector.mk ([10, 20, 30] : List ℕ) 4).Insert 1 9).1.elems[1]? = some 9 ∧
      (((Vector.mk ([10, 20, 30] : List ℕ) 4).Insert 1 9).1.Erase 1).1.elems =
        [10, 20, 30] ∧
      (((Vector.mk ([10, 20, 30] : List ℕ) 4).Insert 1 9).1.Erase 1).1.Size =
        (Vector.mk ([10, 20, 30] : List ℕ) 4).Size) :=
  ⟨by decide, claim_C6_insert_erase (Vector.mk [10, 20, 30] 4) 1 9 (by decide)⟩

/-- C10: for a dereferenceable position at index i, Erase returns an iterator
to index i of the shrunk vector, whose element is the one that followed the
erased element (compared as optional lookups, so the end case is covered), and
equals the end iterator exactly when the erased element was the last one. -/
theorem claim_C10_erase_return (s : Vector α) (i : ℕ) (h : i < s.Size) :
    (s.Erase i).2 = i ∧
    (s.Erase i).1.Size = s.Size - 1 ∧
    (s.Erase i).1.elems[i]? = s.elems[i + 1]? ∧
    (i = s.Size - 1 → (s.Erase i).2 = (s.Erase i).1.Size) := by
  have hlen : (s.Erase i).1.Size = s.Size - 1 := by
    simp [Vector.Erase, Vector.Size, eraseList_length s.elems i h]
  refine ⟨rfl, hlen, ?_, ?_⟩
  · simpa [Vector.Erase] using eraseList_getElem s.elems i h
  · intro hlast; rw [hlen, Vector.Erase]; omega

/-- C10, witness: erasing index 1 of [1, 2, 3]. -/
theorem claim_C10_witness :
    (1 < (Vector.mk ([1, 2, 3] : List ℕ) 3).Size) ∧
    (((Vector.mk ([1, 2, 3] : List ℕ) 3).Erase 1).2 = 1 ∧
      ((Vector.mk ([1, 2, 3] : List ℕ) 3).Erase 1).1.Size =
        (Vector.mk ([1, 2, 3] : List ℕ) 3).Size - 1 ∧
      ((Vector.mk ([1, 2, 3] : List ℕ) 3).Erase 1).1.elems[1]? =
        ([1, 2, 3] : List ℕ)[2]? ∧
      (1 = (Vector.mk ([1, 2, 3] : List ℕ) 3).Size - 1 →
        ((Vector.mk ([1, 2, 3] : List ℕ) 3).Erase 1).2 =
          ((Vector.mk ([1, 2, 3] : List ℕ) 3).Erase 1).1.Size)) :=
  ⟨by decide, claim_C10_erase_return (Vector.mk [1, 2, 3] 3) 1 (by decide)⟩

/-!
Fallible operations.  Copy construction of a contained value a succeeds iff
ok a is true; default construction number i of a batch succeeds iff okDef i;
allocation succeeds iff okAlloc.  The standard uninitialized algorithms destroy
the elements they themselves constructed before letting the exception escape,
so a failed batch contributes no live elements; what they do not destroy is
anything the surrounding code constructed outside the batch.
-/

/-- Model of std::uninitialized_copy_n and std::uninitialized_copy over the
given source values: copies values in order, failing on the first value with
ok a false; on failure the already-constructed copies are destroyed and the
exception propagates (error), otherwise the list of constructed copies is
returned. -/
def uninitCopy (ok : α → Bool) : List α → Except Unit (List α)
  | [] => Except.ok []
  | a :: as =>
    if ok a then
      match uninitCopy ok as with
      | Except.ok bs => Except.ok (a :: bs)
      | Except.error e => Except.error e
    else Except.error ()

theorem uninitCopy_allOk (ok : α → Bool) :
    ∀ xs : List α, (∀ a ∈ xs, ok a = true) → uninitCopy ok xs = Except.ok xs
  | [], _ => rfl
  | a :: as, h => by
    have ha : ok a = true := h a (by simp)
    have hrec := uninitCopy_allOk ok as fun b hb => h b (by simp [hb])
    simp [uninitCopy, ha, hrec]

theorem uninitCopy_error_of_mem (ok : α → Bool) :
    ∀ (xs : List α) (a : α), a ∈ xs → ok a = false →
      uninitCopy ok xs = Except.error ()
  | [], a, ha, _ => by simp at ha
  | b :: bs, a, ha, hbad => by
    rcases List.mem_cons.mp ha with h | h
    · subst h; simp [uninitCopy, hbad]
    · by_cases hb : ok b
      · simp [uninitCopy, hb, uninitCopy_error_of_mem ok bs a h hbad]
      · simp [uninitCopy, hb]

/-- Reallocating branch of PushBack and EmplaceBack (vector.h lines 256-272,
227-243), with the relocation loop in its copying form (the form chosen when
T's move constructor may throw and T is copyable, the only form in which
relocation can fail).  The code allocates new_data of newCapacity size_ slots,
placement-news the value at new_data + size_, runs uninitialized_copy_n over
the old elements, then Swap, destroy_n of the old elements and ++size_.  There
is no try/catch: if relocation throws, the exception leaves PushBack while
new_data's RawMemory destructor only deallocates, so the destructor of the
already-constructed new element at slot size_ never runs.  Returns the outcome
(an error leaves the original vector untouched) paired with the list of values
whose destructors never run. -/
def pushBackGrow (okNew : Bool) (ok : α → Bool) (s : Vector α) (v : α) :
    Except Unit (Vector α) × List α :=
  if okNew = false then (Except.error (), [])
  else
    match uninitCopy ok s.elems with
    | Except.error _ => (Except.error (), [v])
    | Except.ok copies => (Except.ok ⟨copies ++ [v], newCapacity s.Size⟩, [])

/-- C3, defect witness: with size == capacity == 2 and elements [0, 1], a
PushBack of 9 whose relocating copy of the element 1 throws propagates the
exception (second component of the claim is met on the old storage) but leaks
the new element 9 already constructed in the new buffer: its destructor never
runs, contradicting the no-leak guarantee.  The first conjunct evaluates the
code model at this input; the others spell out the divergence and that the
good half of the claim (a throwing construction of the new value leaves
everything clean) does hold. -/
theorem claim_C3_pushback_leak :
    pushBackGrow true (fun a => decide (a ≠ 1)) (Vector.mk ([0, 1] : List ℕ) 2) 9 =
      (Except.error (), [9]) ∧
    ([9] : List ℕ) ≠ [] ∧
    pushBackGrow false (fun _ => true) (Vector.mk ([0, 1] : List ℕ) 2) 9 =
      (Except.error (), []) := by
  refine ⟨rfl, by decide, rfl⟩

/-- Raw view of a buffer adopted by the vector: cap slots, each either live
(holding a value) or dead/uninitialized (none), plus the size_ counter.  After
the defective Emplace path below, size_ can count dead slots. -/
structure RawVec (α : Type) where
  slots : List (Option α)
  size_ : ℕ
  rcap : ℕ
deriving Repr, DecidableEq

/-- Placement-construct the given values into consecutive slots starting at
index start. -/
def writeSlots (slots : List (Option α)) (start : ℕ) : List α → List (Option α)
  | [] => slots
  | x :: xs => writeSlots (slots.set start (some x)) (start + 1) xs

/-- Destroy count consecutive slots starting at index lo (std::destroy). -/
def destroySlots (slots : List (Option α)) (lo : ℕ) : ℕ → List (Option α)
  | 0 => slots
  | n + 1 => destroySlots (slots.set lo none) (lo + 1) n

/-- Reallocating branch of Vector::Emplace (vector.h lines 330-374) in its
copying relocation form, mirrored statement by statement: allocate new_data of
newCapacity size_ slots; placement-new the value at slot index; first try
block copies the prefix [0, index) into slots [0, index), and its catch merely
destroys the new element at slot index without rethrowing; second try block
copies the suffix [index, size_) into slots [index + 1, size_ + 1), and its
catch merely destroys slots [0, index + 1) without rethrowing; then control
always reaches the commit: Swap, destroy_n of the old elements, ++size_.
Except.error is returned only when constructing the new element itself throws
(okNew false), in which case the original vector is untouched. -/
def emplaceGrow (okNew : Bool) (ok : α → Bool) (s : Vector α) (index : ℕ)
    (v : α) : Except Unit (RawVec α) :=
  let nc := newCapacity s.Size
  if okNew = false then Except.error ()
  else
    let s1 := (List.replicate nc (none : Option α)).set index (some v)
    let s2 := match uninitCopy ok (s.elems.take index) with
      | Except.ok pre => writeSlots s1 0 pre
      | Except.error _ => s1.set index none
    let s3 := match uninitCopy ok (s.elems.drop index) with
      | Except.ok suf => writeSlots s2 (index + 1) suf
      | Except.error _ => destroySlots s2 0 (index + 1)
    Except.ok ⟨s3, s.Size + 1, nc⟩

/-- Live values of a raw buffer in slot order. -/
def RawVec.live (r : RawVec α) : List α := r.slots.reduceOption

/-- C1, defect witness: with size == capacity == 2 and elements [0, 1], an
Emplace at index 1 whose prefix relocation (the copy of element 0) throws does
not propagate the exception: the catch block destroys the new element and falls
through, the suffix batch then runs, and the corrupted new buffer is adopted
with size_ == 3 while only the single value 1 is live — instead of the claimed
error with the original two elements intact. -/
theorem claim_C1_emplace_swallows :
    emplaceGrow true (fun a => decide (a ≠ 0)) (Vector.mk ([0, 1] : List ℕ) 2) 1 9 =
      Except.ok (RawVec.mk [none, none, some 1, none] 3 4) ∧
    (RawVec.mk ([none, none, some 1, none] : List (Option ℕ)) 3 4).live = [1] ∧
    ([1] : List ℕ) ≠ [0, 1] ∧
    (∀ t : RawVec ℕ, Except.ok t ≠ (Except.error () : Except Unit (RawVec ℕ))) := by
  refine ⟨rfl, rfl, by decide, fun t h => Except.noConfusion h⟩

/-- Model of std::uninitialized_value_construct_n: performs k default
constructions, the i-th (0-based within the batch, offset by start) succeeding
iff okDef (start + i); on failure the already-constructed elements of the
batch are destroyed and the exception propagates. -/
def valueConstruct (α : Type) [Inhabited α] (okDef : ℕ → Bool) :
    ℕ → ℕ → Except Unit (List α)
  | _, 0 => Except.ok []
  | i, k + 1 =>
    if okDef i then
      match valueConstruct α okDef (i + 1) k with
      | Except.ok xs => Except.ok ((default : α) :: xs)
      | Except.error e => Except.error e
    else Except.error ()

theorem valueConstruct_allOk (α : Type) [Inhabited α] (okDef : ℕ → Bool)
    (h : ∀ i, okDef i = true) :
    ∀ (k start : ℕ), valueConstruct α okDef start k =
      Except.ok (List.replicate k (default : α))
  | 0, _ => rfl
  | k + 1, start => by
    simp [valueConstruct, h start, valueConstruct_allOk α okDef h k (start + 1),
      List.replicate_succ]

theorem valueConstruct_error (α : Type) [Inhabited α] (okDef : ℕ → Bool) :
    ∀ (k start j : ℕ), j < k → okDef (start + j) = false →
      valueConstruct α okDef start k = Except.error ()
  | 0, _, _, hj, _ => by omega
  | k + 1, start, 0, _, hbad => by
    simp at hbad
    simp [valueConstruct, hbad]
  | k + 1, start, j + 1, hj, hbad => by
    by_cases hs : okDef start
    · have : start + 1 + j = start + (j + 1) := by omega
      have hrec := valueConstruct_error α okDef k (start + 1) j (by omega)
        (by rw [this]; exact hbad)
      simp [valueConstruct, hs, hrec]
    · simp [valueConstruct, hs]

/-- Success path of Reserve as invoked from Resize (allocation and relocation
taken as succeeding): no-op when n fits the current capacity, otherwise the new
capacity is exactly n and the live elements are preserved (vector.h lines
426-445). -/
def Vector.ReservePure (s : Vector α) (n : ℕ) : Vector α :=
  if n ≤ s.cap then s else ⟨s.elems, n⟩

/-- Vector::Resize (vector.h lines 203-216) with a failure oracle for default
construction (the claim's failure scenario; the inner Reserve is taken as
succeeding).  When new_size > size_, Reserve(new_size) runs first, then
uninitialized_value_construct_n builds the new tail and size_ = new_size is
only executed after the whole batch succeeds; if the batch throws, its cleanup
has destroyed the partial tail, and the vector keeps its old elements and old
size in the (possibly reallocated) buffer.  When new_size < size_, the range
[new_size, size_) is destroyed.  Except.error st means the exception
propagated leaving the observable state st. -/
def Vector.Resize (α : Type) [Inhabited α] (okDef : ℕ → Bool) (s : Vector α)
    (n : ℕ) : Except (Vector α) (Vector α) :=
  if s.Size < n then
    match valueConstruct α okDef 0 (n - s.Size) with
    | Except.ok news =>
      Except.ok ⟨(s.ReservePure n).elems ++ news, (s.ReservePure n).cap⟩
    | Except.error _ => Except.error (s.ReservePure n)
  else if n < s.Size then Except.ok ⟨s.elems.take n, s.cap⟩
  else Except.ok s

/-- C7: Resize to nLow < Size() keeps exactly the first nLow elements and
destroys the rest; Resize to nHigh > Size() keeps the old elements and appends
default-constructed values up to nHigh; Resize to Size() is the identity; the
resulting sizes are nLow and nHigh respectively; and if the j-th default
construction of the growth batch throws, the batch's earlier constructions are
destroyed and the vector keeps its old elements and old size. -/
theorem claim_C7_resize [Inhabited α] (s : Vector α) (nLow nHigh j : ℕ)
    (okDef : ℕ → Bool) (hLow : nLow < s.Size) (hHigh : s.Size < nHigh)
    (hj : j < nHigh - s.Size) (hbad : okDef j = false) :
    Vector.Resize α (fun _ => true) s nLow = Except.ok ⟨s.elems.take nLow, s.cap⟩ ∧
    Vector.Resize α (fun _ => true) s nHigh =
      Except.ok ⟨s.elems ++ List.replicate (nHigh - s.Size) (default : α),
        (s.ReservePure nHigh).cap⟩ ∧
    Vector.Resize α (fun _ => true) s s.Size = Except.ok s ∧
    Vector.Resize α okDef s nHigh = Except.error (s.ReservePure nHigh) ∧
    (s.ReservePure nHigh).elems = s.elems ∧
    (s.elems.take nLow).length = nLow ∧
    (s.elems ++ List.replicate (nHigh - s.Size) (default : α)).length = nHigh := by
  have hre : (s.ReservePure nHigh).elems = s.elems := by
    unfold Vector.ReservePure; split <;> rfl
  refine ⟨?_, ?_, ?_, ?_, hre, ?_, ?_⟩
  · rw [Vector.Resize, if_neg (by omega), if_pos hLow]
  · rw [Vector.Resize, if_pos hHigh,
      valueConstruct_allOk α (fun _ => true) (fun _ => rfl) (nHigh - s.Size) 0, hre]
  · rw [Vector.Resize, if_neg (by omega), if_neg (by omega)]
  · rw [Vector.Resize, if_pos hHigh,
      valueConstruct_error α okDef (nHigh - s.Size) 0 j hj (by simpa using hbad)]
  · have : nLow ≤ s.elems.length := by
      have := hLow; rw [Vector.Size] at this; omega
    simp [List.length_take]; omega
  · rw [List.length_append, List.length_replicate]
    have := hHigh; rw [Vector.Size] at this
    rw [Vector.Size]; omega

/-- C7, witness: shrinking [5, 6] to one element, growing it to four, and a
growth whose second default construction throws. -/
theorem claim_C7_witness :
    (1 < (Vector.mk ([5, 6] : List ℕ) 2).Size ∧
      (Vector.mk ([5, 6] : List ℕ) 2).Size < 4 ∧
      1 < 4 - (Vector.mk ([5, 6] : List ℕ) 2).Size ∧
      (fun i => decide (i ≠ 1)) 1 = false) ∧
    (Vector.Resize ℕ (fun _ => true) (Vector.mk [5, 6] 2) 1 =
        Except.ok ⟨[5, 6].take 1, 2⟩ ∧
      Vector.Resize ℕ (fun _ => true) (Vector.mk [5, 6] 2) 4 =
        Except.ok ⟨[5, 6] ++ List.replicate (4 - (Vector.mk ([5, 6] : List ℕ) 2).Size)
          (default : ℕ), ((Vector.mk ([5, 6] : List ℕ) 2).ReservePure 4).cap⟩ ∧
      Vector.Resize ℕ (fun _ => true) (Vector.mk [5, 6] 2)
          (Vector.mk ([5, 6] : List ℕ) 2).Size = Except.ok (Vector.mk [5, 6] 2) ∧
      Vector.Resize ℕ (fun i => decide (i ≠ 1)) (Vector.mk [5, 6] 2) 4 =
        Except.error ((Vector.mk ([5, 6] : List ℕ) 2).ReservePure 4) ∧
      ((Vector.mk ([5, 6] : List ℕ) 2).ReservePure 4).elems = [5, 6] ∧
      (([5, 6] : List ℕ).take 1).length = 1 ∧
      (([5, 6] : List ℕ) ++ List.replicate (4 - (Vector.mk ([5, 6] : List ℕ) 2).Size)
        (default : ℕ)).length = 4) :=
  ⟨⟨by decide, by decide, by decide, by decide⟩,
    claim_C7_resize (Vector.mk [5, 6] 2) 1 4 1 (fun i => decide (i ≠ 1))
      (by decide) (by decide) (by decide) (by decide)⟩

/-- Vector::Reserve (vector.h lines 426-445) with an allocation oracle and a
copy oracle for the relocation loop (the copying form, the only fallible one).
If new_capacity <= data_.Capacity() the call returns immediately.  Otherwise
the RawMemory constructor allocates before any element is touched; if
allocation fails the exception propagates with the vector untouched.  Then the
elements are relocated, the old ones destroyed, and the new storage adopted by
Swap; if the relocating copy throws, the partial copies are destroyed by the
algorithm, new_data is deallocated, and the vector is untouched. -/
def Vector.Reserve (okAlloc : Bool) (ok : α → Bool) (s : Vector α) (n : ℕ) :
    Except (Vector α) (Vector α) :=
  if n ≤ s.cap then Except.ok s
  else if okAlloc = false then Except.error s
  else
    match uninitCopy ok s.elems with
    | Except.error _ => Except.error s
    | Except.ok copies => Except.ok ⟨copies, n⟩

/-- Observable state a fallible operation leaves behind, whether it returned
normally or by exception. -/
def exceptState (e : Except (Vector α) (Vector α)) : Vector α :=
  match e with
  | Except.ok t => t
  | Except.error t => t

/-- C8: Reserve with an argument at most the capacity is a no-op changing
nothing observable; Reserve to a larger nBig sets the capacity to exactly nBig
preserving size and elements; if allocation fails the vector is completely
unmodified; and no Reserve call, whatever its argument and outcome, decreases
the capacity. -/
theorem claim_C8_reserve (s : Vector α) (nSmall nBig m : ℕ) (ok ok2 : α → Bool)
    (oa : Bool) (h1 : nSmall ≤ s.cap) (h2 : s.cap < nBig)
    (hok : ∀ a ∈ s.elems, ok a = true) :
    s.Reserve true ok nSmall = Except.ok s ∧
    s.Reserve true ok nBig = Except.ok ⟨s.elems, nBig⟩ ∧
    s.Reserve false ok nBig = Except.error s ∧
    s.cap ≤ (exceptState (s.Reserve oa ok2 m)).cap := by
  refine ⟨?_, ?_, ?_, ?_⟩
  · rw [Vector.Reserve, if_pos h1]
  · rw [Vector.Reserve, if_neg (by omega)]
    simp [uninitCopy_allOk ok s.elems hok]
  · rw [Vector.Reserve, if_neg (by omega)]
    simp
  · unfold Vector.Reserve
    split
    · simp [exceptState]
    · split
      · simp [exceptState]
      · split
        · simp [exceptState]
        · simp [exceptState]; omega

/-- C8, witness: a vector [3] of capacity 2, a no-op Reserve 1, a growing
Reserve 5 and a failing allocation. -/
theorem claim_C8_witness :
    (1 ≤ (Vector.mk ([3] : List ℕ) 2).cap ∧ (Vector.mk ([3] : List ℕ) 2).cap < 5 ∧
      ∀ a ∈ ([3] : List ℕ), (fun _ => true : ℕ → Bool) a = true) ∧
    ((Vector.mk ([3] : List ℕ) 2).Reserve true (fun _ => true) 1 =
        Except.ok (Vector.mk [3] 2) ∧
      (Vector.mk ([3] : List ℕ) 2).Reserve true (fun _ => true) 5 =
        Except.ok ⟨[3], 5⟩ ∧
      (Vector.mk ([3] : List ℕ) 2).Reserve false (fun _ => true) 5 =
        Except.error (Vector.mk [3] 2) ∧
      (Vector.mk ([3] : List ℕ) 2).cap ≤
        (exceptState ((Vector.mk ([3] : List ℕ) 2).Reserve true (fun _ => false) 7)).cap) :=
  ⟨⟨by decide, by decide, by decide⟩,
    claim_C8_reserve (Vector.mk [3] 2) 1 5 7 (fun _ => true) (fun _ => false) true
      (by decide) (by decide) (by decide)⟩

/-- Model of std::copy_n used in the reuse branch of copy assignment: assigns
the source values one by one onto the front of the destination list; if a copy
assignment throws (ok a false) the destination keeps the already assigned
front, the not-yet-assigned rest, and the exception propagates. -/
def copyAssignFront (ok : α → Bool) : List α → List α → Except (List α) (List α)
  | [], ds => Except.ok ds
  | _ :: _, [] => Except.ok []
  | a :: as, d :: ds =>
    if ok a then
      match copyAssignFront ok as ds with
      | Except.ok ds2 => Except.ok (a :: ds2)
      | Except.error ds2 => Except.error (a :: ds2)
    else Except.error (d :: ds)

theorem copyAssignFront_allOk (ok : α → Bool) :
    ∀ (src dst : List α), (∀ a ∈ src, ok a = true) → src.length ≤ dst.length →
      copyAssignFront ok src dst = Except.ok (src ++ dst.drop src.length)
  | [], dst, _, _ => by simp [copyAssignFront]
  | a :: as, [], _, hlen => by simp at hlen
  | a :: as, d :: ds, h, hlen => by
    have ha : ok a = true := h a (by simp)
    have hrec := copyAssignFront_allOk ok as ds
      (fun b hb => h b (by simp [hb])) (by simpa using hlen)
    simp [copyAssignFront, ha, hrec]

/-- Vector copy assignment (vector.h lines 165-192) with a copy oracle; the
flag same models the this == &rhs identity check.  If the source size exceeds
the current capacity a full copy rhs_copy is built (uninitialized_copy_n, so a
failure destroys the partial copy and leaves the destination untouched) and
swapped in, giving it capacity other.size_ by the copy constructor (lines
147-152).  Otherwise the existing storage is reused: when shrinking, copy_n
over the source then destroy_n of the excess; when growing or equal, copy_n
over the first size_ values then uninitialized_copy_n of the remainder;
size_ = rhs.size_ afterwards.  Except.error st: the exception propagated
leaving the destination in state st. -/
def Vector.copyAssign (ok : α → Bool) (same : Bool) (dst src : Vector α) :
    Except (Vector α) (Vector α) :=
  if same then Except.ok dst
  else if dst.cap < src.Size then
    match uninitCopy ok src.elems with
    | Except.error _ => Except.error dst
    | Except.ok copies => Except.ok ⟨copies, src.Size⟩
  else
    if src.Size < dst.Size then
      match copyAssignFront ok src.elems dst.elems with
      | Except.error mid => Except.error ⟨mid, dst.cap⟩
      | Except.ok assigned => Except.ok ⟨assigned.take src.Size, dst.cap⟩
    else
      match copyAssignFront ok (src.elems.take dst.Size) dst.elems with
      | Except.error mid => Except.error ⟨mid, dst.cap⟩
      | Except.ok assigned =>
        match uninitCopy ok (src.elems.drop dst.Size) with
        | Except.error _ => Except.error ⟨assigned, dst.cap⟩
        | Except.ok news => Except.ok ⟨assigned ++ news, dst.cap⟩

theorem copyAssign_success (ok : α → Bool) (dst src : Vector α)
    (hok : ∀ a ∈ src.elems, ok a = true) :
    Vector.copyAssign ok false dst src =
      Except.ok ⟨src.elems, if dst.cap < src.Size then src.Size else dst.cap⟩ := by
  rw [Vector.copyAssign, if_neg (by simp)]
  by_cases hbig : dst.cap < src.Size
  · rw [if_pos hbig, if_pos hbig, uninitCopy_allOk ok src.elems hok]
  · rw [if_neg hbig, if_neg hbig]
    by_cases hsh : src.Size < dst.Size
    · have hlen : src.elems.length ≤ dst.elems.length := le_of_lt hsh
      rw [if_pos hsh, copyAssignFront_allOk ok src.elems dst.elems hok hlen]
      simp [Vector.Size, List.take_left]
    · have hds : dst.Size ≤ src.Size := by omega
      have hok2 : ∀ a ∈ src.elems.take dst.Size, ok a = true :=
        fun a ha => hok a (List.take_subset _ _ ha)
      have hlen2 : (src.elems.take dst.Size).length = dst.elems.length := by
        rw [List.length_take]
        rw [Vector.Size, Vector.Size] at hds
        simpa [Vector.Size] using Nat.min_eq_left hds
      rw [if_neg hsh,
        copyAssignFront_allOk ok (src.elems.take dst.Size) dst.elems hok2
          (le_of_eq hlen2),
        hlen2, List.drop_length, List.append_nil,
        uninitCopy_allOk ok (src.elems.drop dst.Size)
          (fun a ha => hok a (List.drop_subset _ _ ha))]
      simp [Vector.Size, List.take_append_drop]

/-- C9: self-assignment is a no-op checked by identity; copy assignment from a
distinct source into an arbitrary destination dst — whichever of the two paths
runs, storage reuse (capacity sufficient, shrink or grow sub-branch) or
build-and-swap (source size exceeding the capacity) — yields a destination
with the source's elements and size (its capacity the reused one, or exactly
the source's size after the swap of a fresh copy); mutating the resulting copy
only produces a new value extending the source's elements, the source itself
being a distinct unchanged value; and for a destination dstSmall whose
capacity the source's size exceeds, a copy failure while building the fresh
copy leaves dstSmall exactly unmodified. -/
theorem claim_C9_copy_assign (dst src dstSmall : Vector α) (ok okBad : α → Bool)
    (x0 x : α) (hok : ∀ a ∈ src.elems, ok a = true)
    (hbig : dstSmall.cap < src.Size) (hmem : x0 ∈ src.elems)
    (hbad : okBad x0 = false) :
    Vector.copyAssign ok true dst dst = Except.ok dst ∧
    Vector.copyAssign ok false dst src =
      Except.ok ⟨src.elems, if dst.cap < src.Size then src.Size else dst.cap⟩ ∧
    Vector.copyAssign okBad false dstSmall src = Except.error dstSmall ∧
    ((⟨src.elems, src.Size⟩ : Vector α).PushBack x).elems = src.elems ++ [x] := by
  refine ⟨?_, copyAssign_success ok dst src hok, ?_, PushBack_elems _ x⟩
  · rw [Vector.copyAssign, if_pos rfl]
  · rw [Vector.copyAssign, if_neg (by simp), if_pos hbig,
      uninitCopy_error_of_mem okBad src.elems x0 hmem hbad]

/-- C9, witness: assigning [2, 3] into a distinct one-element vector of
capacity 2 (the storage-reuse path, growing sub-branch), and into a
one-element vector of capacity 1 (the build-and-swap path) with a failing
oracle that throws on copying the value 2. -/
theorem claim_C9_witness :
    ((∀ a ∈ ([2, 3] : List ℕ), (fun _ => true : ℕ → Bool) a = true) ∧
      (Vector.mk ([1] : List ℕ) 1).cap < (Vector.mk ([2, 3] : List ℕ) 2).Size ∧
      (2 : ℕ) ∈ ([2, 3] : List ℕ) ∧
      (fun a => decide (a ≠ 2) : ℕ → Bool) 2 = false) ∧
    (Vector.copyAssign (fun _ => true) true (Vector.mk ([4] : List ℕ) 2)
        (Vector.mk ([4] : List ℕ) 2) = Except.ok (Vector.mk [4] 2) ∧
      Vector.copyAssign (fun _ => true) false (Vector.mk ([4] : List ℕ) 2)
        (Vector.mk ([2, 3] : List ℕ) 2) =
        Except.ok ⟨[2, 3], if (Vector.mk ([4] : List ℕ) 2).cap <
          (Vector.mk ([2, 3] : List ℕ) 2).Size
          then (Vector.mk ([2, 3] : List ℕ) 2).Size
          else (Vector.mk ([4] : List ℕ) 2).cap⟩ ∧
      Vector.copyAssign (fun a => decide (a ≠ 2)) false (Vector.mk ([1] : List ℕ) 1)
        (Vector.mk ([2, 3] : List ℕ) 2) = Except.error (Vector.mk [1] 1) ∧
      ((⟨[2, 3], (Vector.mk ([2, 3] : List ℕ) 2).Size⟩ : Vector ℕ).PushBack 7).elems =
        [2, 3] ++ [7]) :=
  ⟨⟨by decide, by decide, by decide, by decide⟩,
    claim_C9_copy_assign (Vector.mk [4] 2) (Vector.mk [2, 3] 2) (Vector.mk [1] 1)
      (fun _ => true) (fun a => decide (a ≠ 2)) 2 7
      (by decide) (by decide) (by decide) (by decide)⟩

end AdvancedVector
